import Mathlib

/-!
Verification of the order-preserving forwarding engine of `teip`
(`src/main.rs`), against its natural-language specification.

Rust values are embedded as follows: byte buffers (`Vec<u8>`) become
`List Nat` (each element `< 256` in practice), Rust `String`s become
`List Char` (a `String` is its sequence of Unicode scalar values), and
`String::from_utf8_lossy` is the WHATWG lossy UTF-8 decoder
`utf8DecodeLossy` below.  The `mpsc` token channel of `main.rs` becomes
an explicit list of `Token`s, and the consumer threads of
`start_output`/`start_solid_output` become recursive functions over that
list.  Regular-expression matchers are abstract (the spec puts the regex
backend out of scope): a matcher's output `find_iter` is an arbitrary
well-formed list of `(start, stop)` character-offset pairs.
-/

set_option autoImplicit false

/-- Modelled from the spec: `Range` of module `list::ranges` (the module's
source file is not part of the sources at hand); §3 of the spec: a range is
`\x7blow: int, high: int\x7d`, 1-based, inclusive. Its two fields are read
in `main.rs` as `ranges[ri].low` / `ranges[ri].high`. -/
structure Range where
  low : Nat
  high : Nat
deriving Repr, DecidableEq

/-- One emitted piece of a record: `msg` is a `send_msg` call (pass-through
`Token::Channel`), `pipe` is a `send_pipe` call (selected text). -/
inductive Seg where
  | msg : List Char → Seg
  | pipe : List Char → Seg
deriving Repr, DecidableEq

/-- The text carried by a segment, ignoring its classification. -/
def Seg.text : Seg → List Char
  | Seg.msg t => t
  | Seg.pipe t => t

/-- Modelled from the spec: the `Token` enum of module `token` (file not in
the sources at hand).  Its four variants are the ones constructed and
matched in `main.rs`: `Token::Channel(String)`, `Token::Piped`,
`Token::Solid(String)`, `Token::EOF`. -/
inductive Token where
  | channel : List Char → Token
  | piped : Token
  | solid : List Char → Token
  | eof : Token
deriving Repr, DecidableEq

/-- Concatenation of the texts of a list of segments, in order, ignoring
the selected/pass-through classification. -/
def concatText : List Seg → List Char
  | [] => []
  | s :: rest => s.text ++ concatText rest

/-! ### UTF-8 (Rust `String::from_utf8_lossy` and `str::as_bytes`) -/

/-- Is `b` a UTF-8 continuation byte (`0x80..=0xBF`)? -/
def contByte (b : Nat) : Bool := 128 ≤ b && b ≤ 191

/-- Lower bound for the first continuation byte after lead byte `b0`
(WHATWG UTF-8 decoding, as implemented by Rust's `from_utf8_lossy`). -/
def cont1Lo (b0 : Nat) : Nat :=
  if b0 = 224 then 160 else if b0 = 240 then 144 else 128

/-- Upper bound for the first continuation byte after lead byte `b0`. -/
def cont1Hi (b0 : Nat) : Nat :=
  if b0 = 237 then 159 else if b0 = 244 then 143 else 191

/-- Validity of the first continuation byte `b1` after lead byte `b0`. -/
def cont1Ok (b0 b1 : Nat) : Bool := cont1Lo b0 ≤ b1 && b1 ≤ cont1Hi b0

/-- U+FFFD REPLACEMENT CHARACTER, substituted for invalid byte sequences. -/
def replChar : Char := Char.ofNat 65533

/-- Rust `String::from_utf8_lossy`: WHATWG UTF-8 decoding with U+FFFD
substitution for each maximal invalid subsequence. -/
def utf8DecodeLossy : List Nat → List Char
  | [] => []
  | b0 :: rest =>
    if b0 ≤ 127 then Char.ofNat b0 :: utf8DecodeLossy rest
    else if 194 ≤ b0 && b0 ≤ 223 then
      match rest with
      | [] => [replChar]
      | b1 :: rest1 =>
        if contByte b1 then
          Char.ofNat ((b0 - 192) * 64 + (b1 - 128)) :: utf8DecodeLossy rest1
        else replChar :: utf8DecodeLossy (b1 :: rest1)
    else if 224 ≤ b0 && b0 ≤ 239 then
      match rest with
      | [] => [replChar]
      | b1 :: rest1 =>
        if cont1Ok b0 b1 then
          match rest1 with
          | [] => [replChar]
          | b2 :: rest2 =>
            if contByte b2 then
              Char.ofNat ((b0 - 224) * 4096 + (b1 - 128) * 64 + (b2 - 128))
                :: utf8DecodeLossy rest2
            else replChar :: utf8DecodeLossy (b2 :: rest2)
        else replChar :: utf8DecodeLossy (b1 :: rest1)
    else if 240 ≤ b0 && b0 ≤ 244 then
      match rest with
      | [] => [replChar]
      | b1 :: rest1 =>
        if cont1Ok b0 b1 then
          match rest1 with
          | [] => [replChar]
          | b2 :: rest2 =>
            if contByte b2 then
              match rest2 with
              | [] => [replChar]
              | b3 :: rest3 =>
                if contByte b3 then
                  Char.ofNat ((b0 - 240) * 262144 + (b1 - 128) * 4096
                      + (b2 - 128) * 64 + (b3 - 128))
                    :: utf8DecodeLossy rest3
                else replChar :: utf8DecodeLossy (b3 :: rest3)
            else replChar :: utf8DecodeLossy (b2 :: rest2)
        else replChar :: utf8DecodeLossy (b1 :: rest1)
    else replChar :: utf8DecodeLossy rest

/-- UTF-8 encoding of a single Unicode scalar value (Rust `char` encoding
inside `String`, observed through `str::as_bytes`). -/
def utf8EncodeChar (c : Char) : List Nat :=
  let n := c.toNat
  if n ≤ 127 then [n]
  else if n ≤ 2047 then [192 + n / 64, 128 + n % 64]
  else if n ≤ 65535 then [224 + n / 4096, 128 + n / 64 % 64, 128 + n % 64]
  else [240 + n / 262144, 128 + n / 4096 % 64, 128 + n / 64 % 64, 128 + n % 64]

/-- `str::as_bytes`: UTF-8 encoding of a string. -/
def utf8Encode : List Char → List Nat
  | [] => []
  | c :: cs => utf8EncodeChar c ++ utf8Encode cs

/-! ### `trim_eol` (main.rs lines 787–802) -/

/-- `trim_eol`: pops a trailing `\r\n`, `\n` or `NUL` from the byte buffer
and returns it.  The Rust function mutates `buf` and returns the popped
terminator as a `String`; here the result is the pair
(trimmed buffer, terminator bytes). -/
def trim_eol (buf : List Nat) : List Nat × List Nat :=
  if List.isSuffixOf [13, 10] buf then (buf.dropLast.dropLast, [13, 10])
  else if List.isSuffixOf [10] buf then (buf.dropLast, [10])
  else if List.isSuffixOf [0] buf then (buf.dropLast, [0])
  else (buf, [])

/-! ### String slicing and splitting -/

/-- Rust slice `&line[a..b]`, with `a`, `b` character offsets. -/
def strSlice (l : List Char) (a b : Nat) : List Char := (l.drop a).take (b - a)

/-- Does the list start with `d`? (Rust `str::starts_with`, used to model
the occurrence scan of `str::split`.) -/
def startsWithL (d : List Char) (s : List Char) : Bool :=
  match d, s with
  | [], _ => true
  | _ :: _, [] => false
  | c :: d1, x :: s1 => c = x && startsWithL d1 s1

/-- Does `d` occur as a contiguous subsequence of `s`? -/
def occursL (d : List Char) : List Char → Bool
  | [] => startsWithL d []
  | c :: t => startsWithL d (c :: t) || occursL d (t)

/-- Recursive worker of `splitOnL`: scans left to right, closing the
current field at each non-overlapping occurrence of the (non-empty)
delimiter `d`. -/
def splitGo (d : List Char) (hd : d ≠ []) : List Char → List (List Char)
  | [] => [[]]
  | c :: t =>
    if startsWithL d (c :: t) then
      [] :: splitGo d hd ((c :: t).drop d.length)
    else
      match splitGo d hd t with
      | [] => [[c]]
      | f :: fs => (c :: f) :: fs
termination_by s => s.length
decreasing_by
  · have h1 : 1 ≤ d.length := by
      cases d with
      | nil => exact absurd rfl hd
      | cons a d1 => simp
    simp only [List.length_drop, List.length_cons]
    omega
  · simp

/-- Rust `str::split(delim)` for a delimiter string, as a list of fields.
For the (unused in the claims) empty delimiter the whole string is
returned as a single field. -/
def splitOnL (d : List Char) (s : List Char) : List (List Char) :=
  if hd : d = [] then [s] else splitGo d hd s

/-- Joining a list of fields with the separator `d`; inverse of
`splitOnL`. -/
def joinSep (d : List Char) : List (List Char) → List Char
  | [] => []
  | [x] => x
  | x :: y :: rest => x ++ d ++ joinSep d (y :: rest)

/-! ### The Range-Set cursor (the query pattern shared by `char_proc`
lines 680–685, `line_line_proc` lines 569–572, `field_regex_proc`
lines 725–728 and 738) -/

/-- `ranges[ri]`, with an out-of-range read modelled as a default range
(in the program `ri < ranges.len()` always holds, since the range list is
non-empty and the cursor only advances while `ri + 1 < ranges.len()`). -/
def rangeAt (ranges : List Range) (ri : Nat) : Range := ranges.getD ri ⟨0, 0⟩

/-- The cursor advance performed before each membership test:
`if ranges[ri].high < idx && (ri + 1) < ranges.len() \x7b ri += 1 \x7d`. -/
def advanceCursor (ranges : List Range) (ri idx : Nat) : Nat :=
  if (rangeAt ranges ri).high < idx ∧ ri + 1 < ranges.length then ri + 1 else ri

/-- The membership test performed after the advance:
`ranges[ri].low <= idx && idx <= ranges[ri].high`. -/
def cursorTest (ranges : List Range) (ri idx : Nat) : Bool :=
  decide ((rangeAt ranges ri).low ≤ idx ∧ idx ≤ (rangeAt ranges ri).high)

/-- Plain membership of `idx` in the Range Set, with no cursor. -/
def memberRS (ranges : List Range) (idx : Nat) : Bool :=
  ranges.any (fun r => decide (r.low ≤ idx) && decide (idx ≤ r.high))

/-- A sequence of cursor-sharing queries: each query index is processed by
one advance step followed by the test, threading the cursor. -/
def queryScan (ranges : List Range) : List Nat → Nat → List Bool
  | [], _ => []
  | idx :: rest, ri =>
    let ri1 := advanceCursor ranges ri idx
    cursorTest ranges ri1 idx :: queryScan ranges rest ri1

/-- Sortedness of a range list: every range satisfies `lo ≤ low ≤ high`
and successors start strictly after the current `high` (ascending and
non-overlapping, spec §3). -/
def rangesSortedB : Nat → List Range → Bool
  | _, [] => true
  | lo, r :: rest => decide (lo ≤ r.low) && decide (r.low ≤ r.high)
      && rangesSortedB (r.high + 1) rest

/-- Well-formedness of a Range Set as produced by the range-list parser:
non-empty, 1-based, ascending, non-overlapping (spec §3). -/
def rangesWF (ranges : List Range) : Prop :=
  ranges ≠ [] ∧ rangesSortedB 1 ranges = true

/-! ### `regex_proc` (main.rs lines 625–664) -/

/-- Loop body of `regex_proc` over the `find_iter` capture list, carrying
`left_index`.  Each capture is a `(start, stop)` character-offset pair. -/
def regex_proc_go (line : List Char) (invert : Bool) :
    List (Nat × Nat) → Nat → List Seg
  | [], left =>
    if left < line.length then
      let unmatched := strSlice line left line.length
      if invert then [Seg.pipe unmatched] else [Seg.msg unmatched]
    else []
  | (s, e) :: caps, left =>
    let unmatched := strSlice line left s
    let matched := strSlice line s e
    (if unmatched.isEmpty then []
     else if invert then [Seg.pipe unmatched] else [Seg.msg unmatched])
    ++ (if invert then [Seg.msg matched] else [Seg.pipe matched])
    ++ regex_proc_go line invert caps e

/-- `regex_proc` on the decoded line: walk the non-overlapping matches
left to right; an unmatched span is emitted only if non-empty, the
matched span is emitted unconditionally; `invert` swaps `msg`/`pipe`. -/
def regex_proc_str (line : List Char) (caps : List (Nat × Nat))
    (invert : Bool) : List Seg :=
  regex_proc_go line invert caps 0

/-- `regex_proc` on the raw record bytes: first
`String::from_utf8_lossy(&line)`, then the match walk. -/
def regex_proc (line : List Nat) (caps : List (Nat × Nat))
    (invert : Bool) : List Seg :=
  regex_proc_str (utf8DecodeLossy line) caps invert

/-- Well-formedness of a `find_iter` result on a line of length `len`,
starting at or after offset `lo`: matches are ordered, non-overlapping
and within bounds. -/
def capsOk (len : Nat) : Nat → List (Nat × Nat) → Bool
  | _, [] => true
  | lo, (s, e) :: caps =>
    decide (lo ≤ s) && decide (s ≤ e) && decide (e ≤ len) && capsOk len e caps

/-! ### `char_proc` (main.rs lines 667–706) -/

/-- Loop body of `char_proc`: per character `c` at 0-based position `i`,
advance the cursor for 1-based index `i + 1`, test membership, push `c`
onto `str_in` or `str_out`, and on a classification change flush the
other buffer. -/
def char_proc_go (ranges : List Range) :
    List Char → Nat → Nat → List Char → List Char → Bool → List Seg
  | [], _, _, strIn, strOut, lastIn =>
    if lastIn ∧ strIn ≠ [] then [Seg.pipe strIn] else [Seg.msg strOut]
  | c :: cs, i, ri, strIn, strOut, lastIn =>
    let ri1 := advanceCursor ranges ri (i + 1)
    let isIn := cursorTest ranges ri1 (i + 1)
    let strIn1 := if isIn then strIn ++ [c] else strIn
    let strOut1 := if isIn then strOut else strOut ++ [c]
    if isIn ∧ ¬ lastIn then
      Seg.msg strOut1 :: char_proc_go ranges cs (i + 1) ri1 strIn1 [] true
    else if ¬ isIn ∧ lastIn then
      Seg.pipe strIn1 :: char_proc_go ranges cs (i + 1) ri1 [] strOut1 false
    else
      char_proc_go ranges cs (i + 1) ri1 strIn1 strOut1 isIn

/-- `char_proc` on the decoded line. -/
def char_proc_str (line : List Char) (ranges : List Range) : List Seg :=
  char_proc_go ranges line 0 0 [] [] false

/-- `char_proc` on the raw record bytes (lossy-decodes first). -/
def char_proc (line : List Nat) (ranges : List Range) : List Seg :=
  char_proc_str (utf8DecodeLossy line) ranges

/-! ### `field_proc` (main.rs lines 753–785) -/

/-- Loop body of `field_proc` over the fields of `line.split(delim)`:
before every field but the first, the delimiter itself is sent as a
pass-through segment; the field is classified by the cursor query on the
1-based field number `i + 1`. -/
def field_proc_go (ranges : List Range) (delim : List Char) :
    List (List Char) → Nat → Nat → List Seg
  | [], _, _ => []
  | tok :: toks, i, ri =>
    (if 0 < i then [Seg.msg delim] else [])
    ++ (let ri1 := advanceCursor ranges ri (i + 1)
        (if cursorTest ranges ri1 (i + 1) then Seg.pipe tok else Seg.msg tok)
          :: field_proc_go ranges delim toks (i + 1) ri1)

/-- `field_proc` on the decoded line. -/
def field_proc_str (line : List Char) (delim : List Char)
    (ranges : List Range) : List Seg :=
  field_proc_go ranges delim (splitOnL delim line) 0 0

/-- `field_proc` on the raw record bytes (lossy-decodes first). -/
def field_proc (line : List Nat) (delim : List Char)
    (ranges : List Range) : List Seg :=
  field_proc_str (utf8DecodeLossy line) delim ranges

/-! ### `field_regex_proc` (main.rs lines 709–750) -/

/-- Loop body of `field_regex_proc` over the delimiter matches, carrying
the 1-based field counter `i` and `left_index`; after the last delimiter
match the final (possibly empty) field is emitted. -/
def field_regex_proc_go (ranges : List Range) (line : List Char) :
    List (Nat × Nat) → Nat → Nat → Nat → List Seg
  | [], i, ri, left =>
    if left ≤ line.length then
      let ri1 := advanceCursor ranges ri i
      let field := strSlice line left line.length
      [if cursorTest ranges ri1 i then Seg.pipe field else Seg.msg field]
    else []
  | (s, e) :: caps, i, ri, left =>
    let field := strSlice line left s
    let spaces := strSlice line s e
    let ri1 := advanceCursor ranges ri i
    (if cursorTest ranges ri1 i then Seg.pipe field else Seg.msg field)
    :: Seg.msg spaces
    :: field_regex_proc_go ranges line caps (i + 1) ri1 e

/-- `field_regex_proc` on the decoded line; `caps` is the delimiter
pattern's `find_iter` result. -/
def field_regex_proc_str (line : List Char) (caps : List (Nat × Nat))
    (ranges : List Range) : List Seg :=
  field_regex_proc_go ranges line caps 1 0 0

/-- `field_regex_proc` on the raw record bytes (lossy-decodes first). -/
def field_regex_proc (line : List Nat) (caps : List (Nat × Nat))
    (ranges : List Range) : List Seg :=
  field_regex_proc_str (utf8DecodeLossy line) caps ranges

/-! ### `read_pipe` (main.rs lines 177–192) and the consumer threads -/

/-- `BufRead::read_until(line_end)`: the bytes read (terminator included,
when found) and the remaining stream. -/
def readUntil (t : Nat) : List Nat → List Nat × List Nat
  | [] => ([], [])
  | b :: bs =>
    if b = t then ([b], bs)
    else
      let (u, r) := readUntil t bs
      (b :: u, r)

/-- `read_pipe`: one terminator-delimited unit from the subprocess stdout
stream.  A read of zero bytes (`n == 0`, exhausted pipe) is the error
case `PipeReceiveError::EndOfFd`, modelled as `none`; otherwise the unit
is `trim_eol`ed and lossy-decoded. -/
def read_pipe (t : Nat) (stream : List Nat) :
    Option (List Char × List Nat) :=
  match stream with
  | [] => none
  | b :: bs =>
    let (u, r) := readUntil t (b :: bs)
    some (utf8DecodeLossy (trim_eol u).1, r)

/-- Result of a consumer thread run: `ok` ends normally (EOF token or a
closed channel) carrying everything written to stdout; `fatal` is the
`read_pipe` failure path, which flushes the writer and calls
`error_exit`; `bugExit` is the `error_exit("Exit with bug.")` arm. -/
inductive ConsumerResult where
  | ok : List (List Char) → ConsumerResult
  | fatal : List (List Char) → ConsumerResult
  | bugExit : ConsumerResult
deriving Repr, DecidableEq

/-- The `start_output` consumer thread (streaming mode, lines 72–114):
receive tokens in order; `Channel` text is written through; `Piped`
performs one `read_pipe` from the subprocess stdout, and on `EndOfFd`
flushes the writer and exits fatally; `EOF` stops.  `acc` is the content
of the buffered stdout writer. -/
def streamConsumer (t : Nat) :
    List Token → List Nat → List (List Char) → ConsumerResult
  | [], _, acc => ConsumerResult.ok acc
  | Token.channel m :: rest, stream, acc =>
    streamConsumer t rest stream (acc ++ [m])
  | Token.piped :: rest, stream, acc =>
    match read_pipe t stream with
    | none => ConsumerResult.fatal acc
    | some (m, stream1) => streamConsumer t rest stream1 (acc ++ [m])
  | Token.eof :: _, _, acc => ConsumerResult.ok acc
  | Token.solid _ :: _, _, _ => ConsumerResult.bugExit

/-! ### `exec_cmd` (lines 194–223) and `exec_cmd_sync` (lines 225–250) -/

/-- The error type of `exec_cmd` (module `errors` is not in the sources
at hand; its three variants are the ones raised in `main.rs`). -/
inductive SpawnError where
  | io : SpawnError
  | stdinOpenFailed : SpawnError
  | stdoutOpenFailed : SpawnError
deriving Repr, DecidableEq

/-- `exec_cmd`: with no command words (dry run) dummy sink/empty handles
are returned; otherwise the spawn either succeeds or raises
`SpawnError::Io`.  The OS outcome of `Command::spawn` is the `spawnOk`
parameter. -/
def exec_cmd (cmds : List String) (spawnOk : Bool) : Except SpawnError Unit :=
  if cmds.length = 0 then Except.ok ()
  else if spawnOk then Except.ok () else Except.error SpawnError.io

/-- The bytes `exec_cmd_sync` writes to the child's stdin before closing
it: the input string's bytes followed by exactly one terminator byte
(lines 235–240). -/
def exec_cmd_sync_stdin (input : List Char) (t : Nat) : List Nat :=
  utf8Encode input ++ [t]

/-- The byte-level result of `exec_cmd_sync` for a child whose whole
stdin-to-stdout behaviour is the function `run`: capture all of stdout
and pop one trailing terminator byte if the output ends with it
(lines 242–249). -/
def exec_cmd_sync_bytes (run : List Nat → List Nat) (input : List Char)
    (t : Nat) : List Nat :=
  let output := run (exec_cmd_sync_stdin input t)
  if List.isSuffixOf [t] output then output.dropLast else output

/-- `exec_cmd_sync`: the string returned to the consumer
(`String::from_utf8_lossy` of the stripped captured output). -/
def exec_cmd_sync (run : List Nat → List Nat) (input : List Char)
    (t : Nat) : List Char :=
  utf8DecodeLossy (exec_cmd_sync_bytes run input t)

/-- Result of the solid-mode consumer thread: `panicked` is the
`.expect("Failed to spawn child process")` path of `exec_cmd_sync` —
a thread panic, later re-raised in the main thread by
`handler.join().unwrap()` in `Drop`, so the process aborts with the Rust
panic exit status (101), not through `error_exit`. -/
inductive SolidResult where
  | ok : List (List Char) → SolidResult
  | panicked : List (List Char) → SolidResult
  | bugExit : SolidResult
deriving Repr, DecidableEq

/-- The `start_solid_output` consumer thread (lines 126–165): `Channel`
text is written through; `Solid(msg)` runs `exec_cmd_sync` on `msg` —
`run = none` models a failing spawn, which panics; `EOF` stops. -/
def solidConsumer (run : Option (List Nat → List Nat)) (t : Nat) :
    List Token → List (List Char) → SolidResult
  | [], acc => SolidResult.ok acc
  | Token.channel m :: rest, acc => solidConsumer run t rest (acc ++ [m])
  | Token.solid m :: rest, acc =>
    match run with
    | none => SolidResult.panicked acc
    | some f => solidConsumer run t rest (acc ++ [exec_cmd_sync f m t])
  | Token.eof :: _, acc => SolidResult.ok acc
  | Token.piped :: _, _ => SolidResult.bugExit

/-! ### The highlight template (`HL`, line 344; checked at line 400) -/

/-- The two characters of the placeholder marker. -/
def hlMarker : List Char := [Char.ofNat 123, Char.ofNat 125]

/-- `HL`: the highlight template split on the placeholder marker
(`DEFAULT_HIGHLIGHT.split("...").collect()`, line 344, with the marker
being the two-character brace pair). -/
def hlParts (template : List Char) : List (List Char) := splitOnL hlMarker template

/-- The startup template check of `main` (line 400): the run aborts
(`error_exit`) exactly when `HL.len() < 2`. -/
def templateOk (hl : List (List Char)) : Bool := decide (2 ≤ hl.length)

/-- The dry-run rendering of a selected segment (line 263):
`HL[0].to_string() + &msg + HL[1]`. -/
def sendPipeDry (hl : List (List Char)) (msg : List Char) : List Char :=
  hl.getD 0 [] ++ msg ++ hl.getD 1 []

/-- Dry-run rendering straight from the template. -/
def renderDry (template : List Char) (msg : List Char) : List Char :=
  sendPipeDry (hlParts template) msg

/-! ### `send_pipe` (lines 260–290) as an effect trace -/

/-- An observable producer effect: a token sent on the channel, or bytes
written to the streaming subprocess's stdin pipe. -/
inductive Effect where
  | send : Token → Effect
  | stdinWrite : List Nat → Effect
deriving Repr, DecidableEq

/-- The sequence of effects performed by one `send_pipe(msg)` call, in
program order: dry run renders and sends a `Channel` token; solid mode
sends a `Solid` token; streaming mode sends `Piped` and THEN writes
`msg` and the terminator byte to the subprocess stdin. -/
def send_pipe_effects (dryrun solid : Bool) (hl : List (List Char))
    (t : Nat) (msg : List Char) : List Effect :=
  if dryrun then [Effect.send (Token.channel (sendPipeDry hl msg))]
  else if solid then [Effect.send (Token.solid msg)]
  else [Effect.send Token.piped, Effect.stdinWrite (utf8Encode msg),
        Effect.stdinWrite [t]]

/-- Is the effect a channel send? -/
def Effect.isSend : Effect → Bool
  | Effect.send _ => true
  | _ => false

/-- Is the effect a subprocess-stdin write? -/
def Effect.isWrite : Effect → Bool
  | Effect.stdinWrite _ => true
  | _ => false

/-- Does some stdin write occur strictly after some channel send in the
trace? -/
def hasWriteAfterSend (tr : List Effect) : Bool :=
  ((tr.dropWhile (fun e => ¬ e.isSend)).drop 1).any Effect.isWrite

/-! ### Process-level outcomes (`error_exit` line 42, `exit_silently`
line 47, `main` lines 392–549) -/

/-- How a run of the process ends: `exit code reported` is a normal exit
(`error_exit` prints a message — `reported = true` — and exits 1; a
completed `main` exits 0), and `panicked` is an uncaught Rust panic
(process status 101, message printed by the runtime, not by `teip`). -/
inductive Outcome where
  | exit : Nat → Bool → Outcome
  | panicked : Outcome
deriving Repr, DecidableEq

/-- Streaming-mode run skeleton of `main`: check the highlight template
(line 400), spawn via `start_output`/`exec_cmd` (line 495, with a
`SpawnError` routed to `error_exit`), then let the consumer drain the
token list; a consumer `fatal`/`bugExit` is an `error_exit` (exit 1),
normal completion exits 0. -/
def streamRun (hl : List (List Char)) (cmds : List String)
    (spawnOk : Bool) (tokens : List Token) (stream : List Nat)
    (t : Nat) : Outcome :=
  if ¬ templateOk hl then Outcome.exit 1 true
  else
    match exec_cmd cmds spawnOk with
    | Except.error _ => Outcome.exit 1 true
    | Except.ok _ =>
      match streamConsumer t tokens stream [] with
      | ConsumerResult.fatal _ => Outcome.exit 1 true
      | ConsumerResult.bugExit => Outcome.exit 1 true
      | ConsumerResult.ok _ => Outcome.exit 0 false

/-- Solid-mode run skeleton of `main`: check the template, start
`start_solid_output` (which spawns NO subprocess, so a doomed command
cannot fail at startup), then let the solid consumer process the tokens;
a spawn failure inside `exec_cmd_sync` panics the consumer thread and,
through `Drop`'s `join().unwrap()`, the whole process. -/
def solidRun (hl : List (List Char)) (run : Option (List Nat → List Nat))
    (tokens : List Token) (t : Nat) : Outcome :=
  if ¬ templateOk hl then Outcome.exit 1 true
  else
    match solidConsumer run t tokens [] with
    | SolidResult.panicked _ => Outcome.panicked
    | SolidResult.bugExit => Outcome.exit 1 true
    | SolidResult.ok _ => Outcome.exit 0 false

/-! ### Spec-side notions used to state the claims -/

/-- The texts of the selected (`pipe`) segments, in order. -/
def pipeTexts (segs : List Seg) : List (List Char) :=
  segs.filterMap (fun s =>
    match s with
    | Seg.pipe txt => some txt
    | Seg.msg _ => none)

/-- The texts of the pass-through (`msg`) segments, in order. -/
def msgTexts (segs : List Seg) : List (List Char) :=
  segs.filterMap (fun s =>
    match s with
    | Seg.msg txt => some txt
    | Seg.pipe _ => none)

/-- The maximal runs of consecutively equally-classified characters of a
line, starting at 0-based position `i`: each group is a non-empty run
paired with its classification, and adjacent groups have different
classifications. -/
def runsGo (cls : Nat → Bool) : List Char → Nat → List (List Char × Bool)
  | [], _ => []
  | c :: cs, i =>
    match runsGo cls cs (i + 1) with
    | [] => [([c], cls i)]
    | (r, b) :: rest =>
      if cls i = b then (c :: r, b) :: rest
      else ([c], cls i) :: (r, b) :: rest

/-- The maximal runs of selected characters of `line` under the
classification `cls`. -/
def selRuns (cls : Nat → Bool) (line : List Char) : List (List Char) :=
  ((runsGo cls line 0).filter (fun g => g.2 = true)).map (fun g => g.1)

/-- The maximal runs of unselected characters of `line` under `cls`. -/
def unselRuns (cls : Nat → Bool) (line : List Char) : List (List Char) :=
  ((runsGo cls line 0).filter (fun g => g.2 = false)).map (fun g => g.1)

/-- The 1-based character classification used by `char_proc`:
character at 0-based position `i` is selected iff `i + 1` is in the
Range Set. -/
def charCls (ranges : List Range) (i : Nat) : Bool := memberRS ranges (i + 1)

/-- The token each segment turns into when sent (`send_msg` lines
252–258, `send_pipe` lines 260–290): in solid (non-dryrun) mode every
selected segment becomes one `Solid` token, i.e. one subprocess
invocation. -/
def segToken (dryrun solid : Bool) (hl : List (List Char)) : Seg → Token
  | Seg.msg txt => Token.channel txt
  | Seg.pipe txt =>
    if dryrun then Token.channel (sendPipeDry hl txt)
    else if solid then Token.solid txt
    else Token.piped

/-- Is the token a `Solid` run request? -/
def Token.isSolidTok : Token → Bool
  | Token.solid _ => true
  | _ => false

/-! ## Auxiliary lemmas -/

lemma concatText_append (a b : List Seg) :
    concatText (a ++ b) = concatText a ++ concatText b := by
  induction a with
  | nil => rfl
  | cons s rest ih => simp [concatText, ih]

lemma strSlice_append_drop (l : List Char) (a b : Nat) (hab : a ≤ b) :
    strSlice l a b ++ l.drop b = l.drop a := by
  have hb : l.drop b = (l.drop a).drop (b - a) := by
    rw [List.drop_drop]
    congr 1
    omega
  rw [strSlice, hb]
  exact List.take_append_drop _ _

lemma strSlice_to_end (l : List Char) (a : Nat) :
    strSlice l a l.length = l.drop a := by
  rw [strSlice]
  apply List.take_of_length_le
  simp

lemma dropLast_pair_of_suffix {l : List Nat} {x y : Nat}
    (h : [x, y] <:+ l) : l.dropLast.dropLast ++ [x, y] = l := by
  obtain ⟨t, rfl⟩ := h
  have h1 : (t ++ [x, y]).dropLast = t ++ [x] := by
    rw [show t ++ [x, y] = (t ++ [x]) ++ [y] by simp]
    simp
  rw [h1]
  simp

lemma dropLast_single_of_suffix {l : List Nat} {x : Nat}
    (h : [x] <:+ l) : l.dropLast ++ [x] = l := by
  obtain ⟨t, rfl⟩ := h
  simp

lemma trim_eol_append (buf : List Nat) :
    (trim_eol buf).1 ++ (trim_eol buf).2 = buf := by
  rw [trim_eol]
  split
  · next h => exact dropLast_pair_of_suffix (List.isSuffixOf_iff_suffix.mp h)
  · split
    · next h => exact dropLast_single_of_suffix (List.isSuffixOf_iff_suffix.mp h)
    · split
      · next h => exact dropLast_single_of_suffix (List.isSuffixOf_iff_suffix.mp h)
      · simp

/-! ## `regex_proc`: concatenation and empty-segment behaviour -/

lemma regex_proc_go_concat (line : List Char) (invert : Bool) :
    ∀ (caps : List (Nat × Nat)) (left : Nat),
      capsOk line.length left caps = true →
      concatText (regex_proc_go line invert caps left) = line.drop left := by
  intro caps
  induction caps with
  | nil =>
    intro left _
    by_cases hl : left < line.length
    · have := strSlice_to_end line left
      cases invert <;> simp [regex_proc_go, hl, concatText, Seg.text, this]
    · have hd : line.drop left = [] := List.drop_eq_nil_of_le (by omega)
      simp [regex_proc_go, hl, hd, concatText]
  | cons c caps ih =>
    intro left hok
    obtain ⟨s, e⟩ := c
    simp only [capsOk, Bool.and_eq_true, decide_eq_true_eq] at hok
    obtain ⟨⟨⟨h1, h2⟩, h3⟩, h4⟩ := hok
    have hrec := ih e h4
    have key : concatText (regex_proc_go line invert ((s, e) :: caps) left)
        = strSlice line left s ++ (strSlice line s e ++
            concatText (regex_proc_go line invert caps e)) := by
      by_cases hemp : (strSlice line left s).isEmpty
      · have : strSlice line left s = [] := by
          simpa [List.isEmpty_iff] using hemp
        cases invert <;>
          simp [regex_proc_go, hemp, this, concatText_append, concatText, Seg.text]
      · cases invert <;>
          simp [regex_proc_go, hemp, concatText_append, concatText, Seg.text]
    rw [key, hrec, strSlice_append_drop line s e h2, strSlice_append_drop line left s h1]

lemma strSlice_ne_nil (l : List Char) (a b : Nat) (hab : a < b)
    (hb : b ≤ l.length) : strSlice l a b ≠ [] := by
  intro hnil
  have hlen := congrArg List.length hnil
  simp only [strSlice, List.length_take, List.length_drop, List.length_nil] at hlen
  omega

lemma regex_proc_go_nonempty (line : List Char) (invert : Bool) :
    ∀ (caps : List (Nat × Nat)) (left : Nat),
      capsOk line.length left caps = true →
      (∀ p ∈ caps, p.1 < p.2) →
      ∀ seg ∈ regex_proc_go line invert caps left, seg.text ≠ [] := by
  intro caps
  induction caps with
  | nil =>
    intro left _ _ seg hseg
    by_cases hl : left < line.length
    · have hne : strSlice line left line.length ≠ [] :=
        strSlice_ne_nil line left line.length hl (le_refl _)
      cases invert <;> simp [regex_proc_go, hl] at hseg <;>
        simpa [hseg, Seg.text] using hne
    · simp [regex_proc_go, hl] at hseg
  | cons c caps ih =>
    intro left hok hpos seg hseg
    obtain ⟨s, e⟩ := c
    simp only [capsOk, Bool.and_eq_true, decide_eq_true_eq] at hok
    obtain ⟨⟨⟨h1, h2⟩, h3⟩, h4⟩ := hok
    have hse : s < e := hpos (s, e) (by simp)
    have hmat : strSlice line s e ≠ [] := strSlice_ne_nil line s e hse h3
    have hrec := ih e h4 (fun p hp => hpos p (List.mem_cons_of_mem _ hp)) seg
    by_cases hemp : (strSlice line left s).isEmpty
    · cases invert <;> simp [regex_proc_go, hemp] at hseg <;>
        rcases hseg with h | h
      · simp [h, Seg.text, hmat]
      · exact hrec h
      · simp [h, Seg.text, hmat]
      · exact hrec h
    · have hunm : strSlice line left s ≠ [] := by
        simpa [List.isEmpty_iff] using hemp
      cases invert <;> simp [regex_proc_go, hemp] at hseg <;>
        rcases hseg with h | h | h
      · simp [h, Seg.text, hunm]
      · simp [h, Seg.text, hmat]
      · exact hrec h
      · simp [h, Seg.text, hunm]
      · simp [h, Seg.text, hmat]
      · exact hrec h

/-! ## `char_proc`: concatenation -/

lemma char_proc_go_concat (ranges : List Range) :
    ∀ (cs : List Char) (i ri : Nat) (strIn strOut : List Char)
      (lastIn : Bool),
      (lastIn = true → strOut = []) → (lastIn = false → strIn = []) →
      concatText (char_proc_go ranges cs i ri strIn strOut lastIn)
        = strOut ++ strIn ++ cs := by
  intro cs
  induction cs with
  | nil =>
    intro i ri strIn strOut lastIn hso hsi
    by_cases hl : lastIn = true
    · have hout : strOut = [] := hso hl
      by_cases hin : strIn = []
      · simp [char_proc_go, hl, hin, hout, concatText, Seg.text]
      · simp [char_proc_go, hl, hin, hout, concatText, Seg.text]
    · have hb : lastIn = false := by
        cases lastIn
        · rfl
        · exact absurd rfl hl
      have hin : strIn = [] := hsi hb
      simp [char_proc_go, hb, hin, concatText, Seg.text]
  | cons c cs ih =>
    intro i ri strIn strOut lastIn hso hsi
    by_cases hIn : cursorTest ranges (advanceCursor ranges ri (i + 1)) (i + 1) = true
    · by_cases hl : lastIn = true
      · have hout : strOut = [] := hso hl
        have := ih (i + 1) (advanceCursor ranges ri (i + 1)) (strIn ++ [c])
          [] true (fun _ => rfl) (fun h => by cases h)
        simp [char_proc_go, hIn, hl, hout, this, concatText, Seg.text]
      · have hb : lastIn = false := by
          cases lastIn
          · rfl
          · exact absurd rfl hl
        have hin : strIn = [] := hsi hb
        have hthis := ih (i + 1) (advanceCursor ranges ri (i + 1)) (strIn ++ [c])
          [] true (fun _ => rfl) (fun h => by cases h)
        simp only [hin, List.nil_append] at hthis
        simp [char_proc_go, hIn, hb, hin, hthis, concatText, Seg.text]
    · by_cases hl : lastIn = true
      · have hout : strOut = [] := hso hl
        have hthis := ih (i + 1) (advanceCursor ranges ri (i + 1)) []
          (strOut ++ [c]) false (fun h => by cases h) (fun _ => rfl)
        simp only [hout, List.nil_append] at hthis
        simp [char_proc_go, hIn, hl, hout, hthis, concatText, Seg.text]
      · have hb : lastIn = false := by
          cases lastIn
          · rfl
          · exact absurd rfl hl
        have hin : strIn = [] := hsi hb
        have := ih (i + 1) (advanceCursor ranges ri (i + 1)) []
          (strOut ++ [c]) false (fun h => by cases h) (fun _ => rfl)
        simp [char_proc_go, hIn, hb, hin, this, concatText, Seg.text]

/-! ## `splitOnL` / `joinSep`: splitting is inverted by joining -/

lemma splitGo_ne_nil (d : List Char) (hd : d ≠ []) :
    ∀ s, splitGo d hd s ≠ [] := by
  intro s
  match s with
  | [] => rw [splitGo]; simp
  | c :: t =>
    rw [splitGo]
    split
    · simp
    · split <;> simp

lemma startsWith_append_drop :
    ∀ (d s : List Char), startsWithL d s = true → d ++ s.drop d.length = s := by
  intro d
  induction d with
  | nil => intro s _; simp
  | cons c d1 ih =>
    intro s h
    cases s with
    | nil => simp [startsWithL] at h
    | cons x s1 =>
      simp only [startsWithL, Bool.and_eq_true, decide_eq_true_eq] at h
      obtain ⟨rfl, h2⟩ := h
      simpa using ih s1 h2

lemma joinSep_cons_cons (d x y : List Char) (rest : List (List Char)) :
    joinSep d (x :: y :: rest) = x ++ d ++ joinSep d (y :: rest) := rfl

lemma joinSep_splitGo (d : List Char) (hd : d ≠ []) :
    ∀ (n : Nat) (s : List Char), s.length ≤ n →
      joinSep d (splitGo d hd s) = s := by
  intro n
  induction n with
  | zero =>
    intro s hs
    have : s = [] := List.eq_nil_of_length_eq_zero (by omega)
    subst this
    rw [splitGo]
    rfl
  | succ n ih =>
    intro s hs
    match s with
    | [] => rw [splitGo]; rfl
    | c :: t =>
      rw [splitGo]
      by_cases hsw : startsWithL d (c :: t) = true
      · simp only [hsw, if_true]
        have hdlen : 1 ≤ d.length := by
          cases d with
          | nil => exact absurd rfl hd
          | cons a d1 => simp
        have hlen : ((c :: t).drop d.length).length ≤ n := by
          simp only [List.length_drop, List.length_cons]
          simp only [List.length_cons] at hs
          omega
        have hrec := ih ((c :: t).drop d.length) hlen
        obtain ⟨f, fs, hffs⟩ :
            ∃ f fs, splitGo d hd ((c :: t).drop d.length) = f :: fs := by
          cases hsp : splitGo d hd ((c :: t).drop d.length) with
          | nil => exact absurd hsp (splitGo_ne_nil d hd _)
          | cons f fs => exact ⟨f, fs, rfl⟩
        rw [hffs]
        rw [hffs] at hrec
        rw [joinSep_cons_cons]
        simp only [List.nil_append]
        rw [hrec]
        exact startsWith_append_drop d (c :: t) hsw
      · simp only [hsw, if_false, Bool.false_eq_true]
        have hlen : t.length ≤ n := by
          simp only [List.length_cons] at hs
          omega
        have hrec := ih t hlen
        cases hsp : splitGo d hd t with
        | nil => exact absurd hsp (splitGo_ne_nil d hd _)
        | cons f fs =>
          rw [hsp] at hrec
          cases fs with
          | nil =>
            simp only [joinSep] at hrec ⊢
            rw [hrec]
          | cons g fs1 =>
            rw [joinSep_cons_cons] at hrec
            rw [joinSep_cons_cons]
            simp only [List.cons_append]
            rw [hrec]

lemma joinSep_splitOnL (d : List Char) (hd : d ≠ []) (s : List Char) :
    joinSep d (splitOnL d s) = s := by
  rw [splitOnL]
  simp only [hd, dif_neg]
  exact joinSep_splitGo d hd s.length s (le_refl _)

/-! ## `field_proc` and `field_regex_proc`: concatenation -/

lemma splitOnL_ne_nil (d s : List Char) : splitOnL d s ≠ [] := by
  rw [splitOnL]
  split
  · simp
  · next h => exact splitGo_ne_nil d h s

lemma field_proc_go_concat_tail (ranges : List Range) (delim : List Char) :
    ∀ (toks : List (List Char)) (i ri : Nat),
      concatText (field_proc_go ranges delim toks (i + 1) ri)
        = toks.foldr (fun tk acc => delim ++ tk ++ acc) [] := by
  intro toks
  induction toks with
  | nil => intro i ri; rfl
  | cons tok toks ih =>
    intro i ri
    by_cases hc : cursorTest ranges
        (advanceCursor ranges ri (i + 1 + 1)) (i + 1 + 1) = true
    · simp [field_proc_go, hc, concatText_append, concatText, Seg.text, ih]
    · simp [field_proc_go, hc, concatText_append, concatText, Seg.text, ih]

lemma joinSep_eq_foldr (d : List Char) :
    ∀ (ts : List (List Char)) (t : List Char),
      joinSep d (t :: ts) = t ++ ts.foldr (fun tk acc => d ++ tk ++ acc) [] := by
  intro ts
  induction ts with
  | nil => intro t; simp [joinSep]
  | cons u ts ih =>
    intro t
    rw [joinSep_cons_cons, ih u]
    simp

lemma field_proc_str_concat (line delim : List Char) (ranges : List Range)
    (hd : delim ≠ []) :
    concatText (field_proc_str line delim ranges) = line := by
  rw [field_proc_str]
  cases hts : splitOnL delim line with
  | nil => exact absurd hts (splitOnL_ne_nil delim line)
  | cons t ts =>
    have hjoin : joinSep delim (t :: ts) = line := by
      rw [← hts]
      exact joinSep_splitOnL delim hd line
    by_cases hc : cursorTest ranges (advanceCursor ranges 0 1) 1 = true
    · simp only [field_proc_go, Nat.lt_irrefl, if_false, hc, if_true,
        List.nil_append, concatText, Seg.text]
      rw [field_proc_go_concat_tail ranges delim ts 0]
      rw [← joinSep_eq_foldr delim ts t, hjoin]
    · simp only [field_proc_go, Nat.lt_irrefl, if_false, hc, Bool.false_eq_true,
        List.nil_append, concatText, Seg.text]
      rw [field_proc_go_concat_tail ranges delim ts 0]
      rw [← joinSep_eq_foldr delim ts t, hjoin]

lemma field_regex_go_concat (ranges : List Range) (line : List Char) :
    ∀ (caps : List (Nat × Nat)) (i ri left : Nat),
      capsOk line.length left caps = true →
      concatText (field_regex_proc_go ranges line caps i ri left)
        = line.drop left := by
  intro caps
  induction caps with
  | nil =>
    intro i ri left _
    by_cases hl : left ≤ line.length
    · by_cases hc : cursorTest ranges (advanceCursor ranges ri i) i = true
      · simp [field_regex_proc_go, hl, hc, concatText, Seg.text, strSlice_to_end]
      · simp [field_regex_proc_go, hl, hc, concatText, Seg.text, strSlice_to_end]
    · have hdrop : line.drop left = [] := List.drop_eq_nil_of_le (by omega)
      simp [field_regex_proc_go, hl, concatText, hdrop]
  | cons c caps ih =>
    intro i ri left hok
    obtain ⟨s, e⟩ := c
    simp only [capsOk, Bool.and_eq_true, decide_eq_true_eq] at hok
    obtain ⟨⟨⟨h1, h2⟩, h3⟩, h4⟩ := hok
    have hrec := ih (i + 1) (advanceCursor ranges ri i) e h4
    by_cases hc : cursorTest ranges (advanceCursor ranges ri i) i = true
    · simp only [field_regex_proc_go, hc, if_true, concatText, Seg.text]
      rw [hrec, strSlice_append_drop line s e h2, strSlice_append_drop line left s h1]
    · simp only [field_regex_proc_go, hc, Bool.false_eq_true, if_false,
        concatText, Seg.text]
      rw [hrec, strSlice_append_drop line s e h2, strSlice_append_drop line left s h1]

/-! ## The cursor invariant: consecutive queries compute membership -/

lemma rangeAt_cons_succ (r : Range) (rest : List Range) (j : Nat) :
    rangeAt (r :: rest) (j + 1) = rangeAt rest j := rfl

lemma sorted_facts (rs : List Range) :
    ∀ (lo : Nat), rangesSortedB lo rs = true →
      ∀ j, j < rs.length →
        lo ≤ (rangeAt rs j).low ∧ (rangeAt rs j).low ≤ (rangeAt rs j).high := by
  induction rs with
  | nil => intro lo _ j hj; simp at hj
  | cons r rest ih =>
    intro lo hs j hj
    simp only [rangesSortedB, Bool.and_eq_true, decide_eq_true_eq] at hs
    obtain ⟨⟨h1, h2⟩, h3⟩ := hs
    cases j with
    | zero => exact ⟨h1, h2⟩
    | succ j1 =>
      rw [rangeAt_cons_succ]
      have hj1 : j1 < rest.length := by
        simp only [List.length_cons] at hj
        omega
      have := ih (r.high + 1) h3 j1 hj1
      exact ⟨by omega, this.2⟩

lemma sorted_high_lt_low (rs : List Range) :
    ∀ (lo : Nat), rangesSortedB lo rs = true →
      ∀ j k, j < k → k < rs.length →
        (rangeAt rs j).high < (rangeAt rs k).low := by
  induction rs with
  | nil => intro lo _ j k _ hk; simp at hk
  | cons r rest ih =>
    intro lo hs j k hjk hk
    simp only [rangesSortedB, Bool.and_eq_true, decide_eq_true_eq] at hs
    obtain ⟨⟨h1, h2⟩, h3⟩ := hs
    cases k with
    | zero => omega
    | succ k1 =>
      have hk1 : k1 < rest.length := by
        simp only [List.length_cons] at hk
        omega
      rw [rangeAt_cons_succ]
      cases j with
      | zero =>
        have hf := sorted_facts rest (r.high + 1) h3 k1 hk1
        show r.high < (rangeAt rest k1).low
        omega
      | succ j1 =>
        rw [rangeAt_cons_succ]
        exact ih (r.high + 1) h3 j1 k1 (by omega) hk1

lemma memberRS_iff (rs : List Range) (idx : Nat) :
    memberRS rs idx = true ↔
      ∃ j, j < rs.length ∧ (rangeAt rs j).low ≤ idx
        ∧ idx ≤ (rangeAt rs j).high := by
  rw [memberRS, List.any_eq_true]
  constructor
  · rintro ⟨r, hr, hp⟩
    simp only [Bool.and_eq_true, decide_eq_true_eq] at hp
    obtain ⟨j, hj, hget⟩ := List.mem_iff_getElem.mp hr
    refine ⟨j, hj, ?_, ?_⟩
    · rw [rangeAt, List.getD_eq_getElem rs ⟨0, 0⟩ hj, hget]
      exact hp.1
    · rw [rangeAt, List.getD_eq_getElem rs ⟨0, 0⟩ hj, hget]
      exact hp.2
  · rintro ⟨j, hj, h1, h2⟩
    refine ⟨rangeAt rs j, ?_, ?_⟩
    · rw [rangeAt, List.getD_eq_getElem rs ⟨0, 0⟩ hj]
      exact List.getElem_mem hj
    · simp only [Bool.and_eq_true, decide_eq_true_eq]
      exact ⟨h1, h2⟩

/-- Invariant holding before the advance step of the query for index
`idx`: the cursor is in bounds, all ranges before it end before `idx`,
and its own range ends no earlier than `idx - 1` unless it is the last
range. -/
def cursorPre (rs : List Range) (idx ri : Nat) : Prop :=
  ri < rs.length ∧ (∀ j, j < ri → (rangeAt rs j).high < idx)
    ∧ (idx ≤ (rangeAt rs ri).high + 1 ∨ ri = rs.length - 1)

/-- Invariant holding between the advance step and the test of the query
for index `idx`. -/
def cursorPost (rs : List Range) (idx ri : Nat) : Prop :=
  ri < rs.length ∧ (∀ j, j < ri → (rangeAt rs j).high < idx)
    ∧ (idx ≤ (rangeAt rs ri).high ∨ ri = rs.length - 1)

lemma cursorPre_init (rs : List Range) (h : rangesWF rs) : cursorPre rs 1 0 := by
  refine ⟨?_, ?_, Or.inl ?_⟩
  · cases rs with
    | nil => exact absurd rfl h.1
    | cons r rest => simp
  · intro j hj; omega
  · omega

lemma cursorPre_advance (rs : List Range) (hWF : rangesWF rs) (idx ri : Nat)
    (h : cursorPre rs idx ri) : cursorPost rs idx (advanceCursor rs ri idx) := by
  obtain ⟨hlt, hbefore, hcur⟩ := h
  rw [advanceCursor]
  by_cases hstep : (rangeAt rs ri).high < idx ∧ ri + 1 < rs.length
  · rw [if_pos hstep]
    obtain ⟨hhi, hlen⟩ := hstep
    refine ⟨hlen, ?_, Or.inl ?_⟩
    · intro j hj
      by_cases hjr : j < ri
      · exact hbefore j hjr
      · have : j = ri := by omega
        rw [this]
        exact hhi
    · have hcur1 : idx ≤ (rangeAt rs ri).high + 1 := by
        rcases hcur with h1 | h1
        · exact h1
        · omega
      have hlow := sorted_high_lt_low rs 1 hWF.2 ri (ri + 1) (by omega) hlen
      have hfacts := sorted_facts rs 1 hWF.2 (ri + 1) hlen
      omega
  · rw [if_neg hstep]
    refine ⟨hlt, hbefore, ?_⟩
    rw [Classical.not_and_iff_or_not_not] at hstep
    rcases hstep with h1 | h1
    · exact Or.inl (by omega)
    · exact Or.inr (by omega)

lemma cursorPost_test (rs : List Range) (hWF : rangesWF rs) (idx ri : Nat)
    (h : cursorPost rs idx ri) : cursorTest rs ri idx = memberRS rs idx := by
  obtain ⟨hlt, hbefore, hcur⟩ := h
  by_cases ht : cursorTest rs ri idx = true
  · rw [ht]
    rw [cursorTest, decide_eq_true_eq] at ht
    exact (memberRS_iff rs idx).mpr ⟨ri, hlt, ht.1, ht.2⟩ |>.symm
  · have ht1 : cursorTest rs ri idx = false := by
      cases hc : cursorTest rs ri idx
      · rfl
      · exact absurd hc ht
    rw [ht1]
    rw [cursorTest, decide_eq_false_iff_not] at ht1
    symm
    rw [Bool.eq_false_iff]
    intro hmem
    obtain ⟨j, hj, hjl, hjh⟩ := (memberRS_iff rs idx).mp hmem
    rcases Nat.lt_trichotomy j ri with hc | hc | hc
    · have := hbefore j hc
      omega
    · rw [hc] at hjl hjh
      exact ht1 ⟨hjl, hjh⟩
    · rcases hcur with h1 | h1
      · have := sorted_high_lt_low rs 1 hWF.2 ri j hc hj
        omega
      · omega

lemma cursorPost_pre_succ (rs : List Range) (idx ri : Nat)
    (h : cursorPost rs idx ri) : cursorPre rs (idx + 1) ri := by
  obtain ⟨hlt, hbefore, hcur⟩ := h
  refine ⟨hlt, ?_, ?_⟩
  · intro j hj
    have := hbefore j hj
    omega
  · rcases hcur with h1 | h1
    · exact Or.inl (by omega)
    · exact Or.inr h1

lemma queryScan_consec (rs : List Range) (hWF : rangesWF rs) :
    ∀ (n idx ri : Nat), cursorPre rs idx ri →
      queryScan rs (List.range' idx n) ri
        = (List.range' idx n).map (memberRS rs) := by
  intro n
  induction n with
  | zero => intro idx ri _; rfl
  | succ n ih =>
    intro idx ri hpre
    have hpost := cursorPre_advance rs hWF idx ri hpre
    have htest := cursorPost_test rs hWF idx _ hpost
    have hnext := cursorPost_pre_succ rs idx _ hpost
    rw [List.range'_succ]
    simp only [queryScan, List.map_cons]
    rw [htest, ih (idx + 1) _ hnext]

/-! ## `char_proc` computes the maximal runs of its classification -/

/-- `char_proc_go` with the cursor-based classification abstracted into a
function `cls` of the 0-based character position (justified by
`char_proc_go_eq_cls` below). -/
def char_proc_cls_go (cls : Nat → Bool) :
    List Char → Nat → List Char → List Char → Bool → List Seg
  | [], _, strIn, strOut, lastIn =>
    if lastIn ∧ strIn ≠ [] then [Seg.pipe strIn] else [Seg.msg strOut]
  | c :: cs, i, strIn, strOut, lastIn =>
    let isIn := cls i
    let strIn1 := if isIn then strIn ++ [c] else strIn
    let strOut1 := if isIn then strOut else strOut ++ [c]
    if isIn ∧ ¬ lastIn then
      Seg.msg strOut1 :: char_proc_cls_go cls cs (i + 1) strIn1 [] true
    else if ¬ isIn ∧ lastIn then
      Seg.pipe strIn1 :: char_proc_cls_go cls cs (i + 1) [] strOut1 false
    else
      char_proc_cls_go cls cs (i + 1) strIn1 strOut1 isIn

lemma char_proc_go_eq_cls (rs : List Range) (hWF : rangesWF rs) :
    ∀ (cs : List Char) (i ri : Nat) (strIn strOut : List Char)
      (lastIn : Bool), cursorPre rs (i + 1) ri →
      char_proc_go rs cs i ri strIn strOut lastIn
        = char_proc_cls_go (charCls rs) cs i strIn strOut lastIn := by
  intro cs
  induction cs with
  | nil => intro i ri strIn strOut lastIn _; rfl
  | cons c cs1 ih =>
    intro i ri strIn strOut lastIn hpre
    have hpost := cursorPre_advance rs hWF (i + 1) ri hpre
    have htest := cursorPost_test rs hWF (i + 1) _ hpost
    have hnext := cursorPost_pre_succ rs (i + 1) _ hpost
    have hrec : ∀ a b c1, char_proc_go rs cs1 (i + 1)
        (advanceCursor rs ri (i + 1)) a b c1
        = char_proc_cls_go (charCls rs) cs1 (i + 1) a b c1 :=
      fun a b c1 => ih (i + 1) (advanceCursor rs ri (i + 1)) a b c1 hnext
    simp only [char_proc_go, char_proc_cls_go, charCls, htest, hrec]

/-- The segments a list of runs is rendered into. -/
def segsOfRuns : List (List Char × Bool) → List Seg
  | [] => []
  | (r, b) :: rest => (if b then Seg.pipe r else Seg.msg r) :: segsOfRuns rest

/-- How a pending buffer (`pending`, with classification `pb`) is glued
onto the runs of the remaining characters. -/
def glueRuns (pending : Seg) (pb : Bool) : List (List Char × Bool) → List Seg
  | [] => [pending]
  | (r, b) :: rest =>
    if b = pb then segsOfRuns ((pending.text ++ r, b) :: rest)
    else pending :: segsOfRuns ((r, b) :: rest)

lemma char_proc_cls_go_glue (cls : Nat → Bool) :
    ∀ (cs : List Char) (i : Nat) (strIn strOut : List Char) (lastIn : Bool),
      (lastIn = true → strOut = [] ∧ strIn ≠ []) →
      (lastIn = false → strIn = []) →
      char_proc_cls_go cls cs i strIn strOut lastIn
        = glueRuns (if lastIn then Seg.pipe strIn else Seg.msg strOut) lastIn
            (runsGo cls cs i) := by
  intro cs
  induction cs with
  | nil =>
    intro i strIn strOut lastIn hsi hso
    by_cases hl : lastIn = true
    · obtain ⟨ho, hi⟩ := hsi hl
      simp [char_proc_cls_go, runsGo, glueRuns, hl, hi]
    · have hb : lastIn = false := by
        cases lastIn
        · rfl
        · exact absurd rfl hl
      simp [char_proc_cls_go, runsGo, glueRuns, hb]
  | cons c cs1 ih =>
    intro i strIn strOut lastIn hsi hso
    by_cases hb0 : cls i = true
    · by_cases hl : lastIn = true
      · subst hl
        obtain ⟨ho, hi⟩ := hsi rfl
        subst ho
        have hrec := ih (i + 1) (strIn ++ [c]) [] true
          (fun _ => ⟨rfl, by simp⟩) (fun h => by cases h)
        cases hrg : runsGo cls cs1 (i + 1) with
        | nil =>
          rw [hrg] at hrec
          simp [char_proc_cls_go, runsGo, glueRuns, segsOfRuns, Seg.text,
            hb0, hi, hrec, hrg]
        | cons g rest =>
          obtain ⟨r, b⟩ := g
          rw [hrg] at hrec
          by_cases hbb : b = true
          · subst hbb
            simp [char_proc_cls_go, runsGo, glueRuns, segsOfRuns, Seg.text,
              hb0, hi, hrec, hrg]
          · simp [char_proc_cls_go, runsGo, glueRuns, segsOfRuns, Seg.text,
              hb0, hi, hbb, hrec, hrg]
      · have hb : lastIn = false := by
          cases lastIn
          · rfl
          · exact absurd rfl hl
        subst hb
        have hin : strIn = [] := hso rfl
        subst hin
        have hrec := ih (i + 1) ([] ++ [c]) [] true
          (fun _ => ⟨rfl, by simp⟩) (fun h => by cases h)
        simp only [List.nil_append] at hrec
        cases hrg : runsGo cls cs1 (i + 1) with
        | nil =>
          rw [hrg] at hrec
          simp [char_proc_cls_go, runsGo, glueRuns, segsOfRuns, Seg.text,
            hb0, hrec, hrg]
        | cons g rest =>
          obtain ⟨r, b⟩ := g
          rw [hrg] at hrec
          by_cases hbb : b = true
          · subst hbb
            simp [char_proc_cls_go, runsGo, glueRuns, segsOfRuns, Seg.text,
              hb0, hrec, hrg]
          · simp [char_proc_cls_go, runsGo, glueRuns, segsOfRuns, Seg.text,
              hb0, hbb, hrec, hrg]
    · have hb0f : cls i = false := by
        cases hc : cls i
        · rfl
        · exact absurd hc hb0
      by_cases hl : lastIn = true
      · subst hl
        obtain ⟨ho, hi⟩ := hsi rfl
        subst ho
        have hrec := ih (i + 1) [] ([] ++ [c]) false
          (fun h => by cases h) (fun _ => rfl)
        simp only [List.nil_append] at hrec
        cases hrg : runsGo cls cs1 (i + 1) with
        | nil =>
          rw [hrg] at hrec
          simp [char_proc_cls_go, runsGo, glueRuns, segsOfRuns, Seg.text,
            hb0f, hi, hrec, hrg]
        | cons g rest =>
          obtain ⟨r, b⟩ := g
          rw [hrg] at hrec
          by_cases hbb : b = true
          · subst hbb
            simp [char_proc_cls_go, runsGo, glueRuns, segsOfRuns, Seg.text,
              hb0f, hi, hrec, hrg]
          · simp [char_proc_cls_go, runsGo, glueRuns, segsOfRuns, Seg.text,
              hb0f, hi, hbb, hrec, hrg]
      · have hb : lastIn = false := by
          cases lastIn
          · rfl
          · exact absurd rfl hl
        subst hb
        have hin : strIn = [] := hso rfl
        subst hin
        have hrec := ih (i + 1) [] (strOut ++ [c]) false
          (fun h => by cases h) (fun _ => rfl)
        cases hrg : runsGo cls cs1 (i + 1) with
        | nil =>
          rw [hrg] at hrec
          simp [char_proc_cls_go, runsGo, glueRuns, segsOfRuns, Seg.text,
            hb0f, hrec, hrg]
        | cons g rest =>
          obtain ⟨r, b⟩ := g
          rw [hrg] at hrec
          by_cases hbb : b = true
          · subst hbb
            simp [char_proc_cls_go, runsGo, glueRuns, segsOfRuns, Seg.text,
              hb0f, hrec, hrg]
          · simp [char_proc_cls_go, runsGo, glueRuns, segsOfRuns, Seg.text,
              hb0f, hbb, hrec, hrg]

lemma pipeTexts_cons_pipe (t : List Char) (s : List Seg) :
    pipeTexts (Seg.pipe t :: s) = t :: pipeTexts s := rfl

lemma pipeTexts_cons_msg (t : List Char) (s : List Seg) :
    pipeTexts (Seg.msg t :: s) = pipeTexts s := rfl

lemma msgTexts_cons_msg (t : List Char) (s : List Seg) :
    msgTexts (Seg.msg t :: s) = t :: msgTexts s := rfl

lemma msgTexts_cons_pipe (t : List Char) (s : List Seg) :
    msgTexts (Seg.pipe t :: s) = msgTexts s := rfl

lemma pipeTexts_segsOfRuns (g : List (List Char × Bool)) :
    pipeTexts (segsOfRuns g)
      = (g.filter (fun p => p.2 = true)).map (fun p => p.1) := by
  induction g with
  | nil => rfl
  | cons p rest ih =>
    obtain ⟨r, b⟩ := p
    cases b
    · simpa [segsOfRuns, pipeTexts_cons_msg] using ih
    · simpa [segsOfRuns, pipeTexts_cons_pipe] using ih

lemma msgTexts_segsOfRuns (g : List (List Char × Bool)) :
    msgTexts (segsOfRuns g)
      = (g.filter (fun p => p.2 = false)).map (fun p => p.1) := by
  induction g with
  | nil => rfl
  | cons p rest ih =>
    obtain ⟨r, b⟩ := p
    cases b
    · simpa [segsOfRuns, msgTexts_cons_msg] using ih
    · simpa [segsOfRuns, msgTexts_cons_pipe] using ih

lemma runsGo_groups_ne_nil (cls : Nat → Bool) :
    ∀ (cs : List Char) (i : Nat) (g : List Char × Bool),
      g ∈ runsGo cls cs i → g.1 ≠ [] := by
  intro cs
  induction cs with
  | nil => intro i g hg; simp [runsGo] at hg
  | cons c cs1 ih =>
    intro i g hg
    simp only [runsGo] at hg
    cases hrg : runsGo cls cs1 (i + 1) with
    | nil =>
      rw [hrg] at hg
      simp only [List.mem_singleton] at hg
      rw [hg]
      simp
    | cons p rest =>
      obtain ⟨r, b⟩ := p
      rw [hrg] at hg
      simp only [] at hg
      by_cases hbb : cls i = b
      · rw [if_pos hbb] at hg
        rcases List.mem_cons.mp hg with h | h
        · rw [h]
          simp
        · exact ih (i + 1) g (by rw [hrg]; exact List.mem_cons_of_mem _ h)
      · rw [if_neg hbb] at hg
        rcases List.mem_cons.mp hg with h | h
        · rw [h]
          simp
        · exact ih (i + 1) g (by rw [hrg]; exact h)

lemma char_proc_str_glue (line : List Char) (rs : List Range)
    (hWF : rangesWF rs) :
    char_proc_str line rs
      = glueRuns (Seg.msg []) false (runsGo (charCls rs) line 0) := by
  rw [char_proc_str]
  rw [char_proc_go_eq_cls rs hWF line 0 0 [] [] false (cursorPre_init rs hWF)]
  rw [char_proc_cls_go_glue (charCls rs) line 0 [] [] false
    (fun h => by cases h) (fun _ => rfl)]
  rfl

lemma filter_nonempty_of_groups (g : List (List Char × Bool))
    (hne : ∀ p ∈ g, p.1 ≠ []) (b0 : Bool) :
    ((g.filter (fun p => p.2 = b0)).map (fun p => p.1)).filter
        (fun t => !t.isEmpty)
      = (g.filter (fun p => p.2 = b0)).map (fun p => p.1) := by
  apply List.filter_eq_self.mpr
  intro t ht
  obtain ⟨p, hp, hpt⟩ := List.mem_map.mp ht
  have hpg : p ∈ g := List.mem_of_mem_filter hp
  have hp1 := hne p hpg
  rw [← hpt]
  cases hq : p.1 with
  | nil => exact absurd hq hp1
  | cons x xs => simp

lemma pipeTexts_char_proc_str (line : List Char) (rs : List Range)
    (hWF : rangesWF rs) :
    pipeTexts (char_proc_str line rs) = selRuns (charCls rs) line := by
  rw [char_proc_str_glue line rs hWF, selRuns]
  cases hg : runsGo (charCls rs) line 0 with
  | nil => simp [glueRuns, pipeTexts]
  | cons p rest =>
    obtain ⟨r, b⟩ := p
    cases b
    · simp [glueRuns, segsOfRuns, Seg.text, pipeTexts_cons_msg,
        pipeTexts_cons_pipe, pipeTexts_segsOfRuns]
    · simp [glueRuns, segsOfRuns, Seg.text, pipeTexts_cons_msg,
        pipeTexts_cons_pipe, pipeTexts_segsOfRuns]

lemma msgTexts_char_proc_str (line : List Char) (rs : List Range)
    (hWF : rangesWF rs) :
    (msgTexts (char_proc_str line rs)).filter (fun t => !t.isEmpty)
      = unselRuns (charCls rs) line := by
  rw [char_proc_str_glue line rs hWF, unselRuns]
  have hne : ∀ p ∈ runsGo (charCls rs) line 0, (p : List Char × Bool).1 ≠ [] :=
    fun p hp => runsGo_groups_ne_nil (charCls rs) line 0 p hp
  cases hg : runsGo (charCls rs) line 0 with
  | nil => simp [glueRuns, msgTexts]
  | cons p rest =>
    obtain ⟨r, b⟩ := p
    rw [hg] at hne
    cases b
    · have hthis := filter_nonempty_of_groups ((r, false) :: rest) hne false
      have hglue : glueRuns (Seg.msg []) false ((r, false) :: rest)
          = segsOfRuns ((r, false) :: rest) := by
        simp [glueRuns, Seg.text]
      rw [hglue, msgTexts_segsOfRuns]
      exact hthis
    · have hthis := filter_nonempty_of_groups ((r, true) :: rest) hne false
      have hglue : glueRuns (Seg.msg []) false ((r, true) :: rest)
          = Seg.msg [] :: segsOfRuns ((r, true) :: rest) := by
        simp [glueRuns]
      have hfe : List.filter (fun t => !t.isEmpty)
          (([] : List Char) :: msgTexts (segsOfRuns ((r, true) :: rest)))
          = List.filter (fun t => !t.isEmpty)
              (msgTexts (segsOfRuns ((r, true) :: rest))) := by
        simp
      rw [hglue, msgTexts_cons_msg, hfe, msgTexts_segsOfRuns]
      exact hthis

lemma countSolid_map_segToken (hl : List (List Char)) (segs : List Seg) :
    ((segs.map (segToken false true hl)).countP Token.isSolidTok)
      = (pipeTexts segs).length := by
  induction segs with
  | nil => rfl
  | cons s rest ih =>
    cases s with
    | msg t =>
      simp [segToken, Token.isSolidTok, List.countP_cons, pipeTexts_cons_msg, ih]
    | pipe t =>
      simp [segToken, Token.isSolidTok, List.countP_cons, pipeTexts_cons_pipe, ih]

/-! ## `splitOnL`: occurrence characterisation -/

lemma startsWithL_append (d b : List Char) : startsWithL d (d ++ b) = true := by
  induction d with
  | nil => rfl
  | cons c d1 ih => simp [startsWithL, ih]

lemma startsWithL_trans :
    ∀ (a b c : List Char), startsWithL a b = true → startsWithL b c = true →
      startsWithL a c = true := by
  intro a
  induction a with
  | nil => intro b c _ _; rfl
  | cons x a1 ih =>
    intro b c hab hbc
    cases b with
    | nil => simp [startsWithL] at hab
    | cons y b1 =>
      cases c with
      | nil => simp [startsWithL] at hbc
      | cons z c1 =>
        simp only [startsWithL, Bool.and_eq_true, decide_eq_true_eq] at hab hbc ⊢
        exact ⟨hab.1.trans hbc.1, ih b1 c1 hab.2 hbc.2⟩

lemma occursL_iff_exists (d : List Char) (hd : d ≠ []) :
    ∀ s, occursL d s = true ↔ ∃ a b, s = a ++ d ++ b := by
  intro s
  induction s with
  | nil =>
    cases d with
    | nil => exact absurd rfl hd
    | cons c d1 =>
      simp only [occursL, startsWithL]
      constructor
      · intro h; cases h
      · rintro ⟨a, b, hab⟩
        exact absurd hab.symm (by simp)
  | cons c t ih =>
    simp only [occursL, Bool.or_eq_true]
    constructor
    · rintro (h | h)
      · exact ⟨[], (c :: t).drop d.length, by
          rw [List.nil_append]
          exact (startsWith_append_drop d (c :: t) h).symm⟩
      · obtain ⟨a, b, hab⟩ := ih.mp h
        exact ⟨c :: a, b, by rw [hab]; rfl⟩
    · rintro ⟨a, b, hab⟩
      cases a with
      | nil =>
        left
        simp only [List.nil_append] at hab
        rw [hab]
        exact startsWithL_append d b
      | cons x a1 =>
        right
        simp only [List.cons_append, List.cons.injEq] at hab
        exact ih.mpr ⟨a1, b, hab.2⟩

lemma occursL_iff_splitGo (d : List Char) (hd : d ≠ []) :
    ∀ s, occursL d s = true ↔ 2 ≤ (splitGo d hd s).length := by
  intro s
  induction s with
  | nil =>
    rw [splitGo]
    cases d with
    | nil => exact absurd rfl hd
    | cons c d1 => simp [occursL, startsWithL]
  | cons c t ih =>
    rw [splitGo, occursL]
    by_cases hsw : startsWithL d (c :: t) = true
    · rw [hsw]
      simp only [Bool.true_or, if_true]
      have h1 : 1 ≤ (splitGo d hd ((c :: t).drop d.length)).length := by
        cases hsp : splitGo d hd ((c :: t).drop d.length) with
        | nil => exact absurd hsp (splitGo_ne_nil d hd _)
        | cons f fs => simp
      constructor
      · intro _
        simp only [List.length_cons]
        omega
      · intro _
        trivial
    · have hswf : startsWithL d (c :: t) = false := by
        cases hq : startsWithL d (c :: t)
        · rfl
        · exact absurd hq hsw
      rw [hswf]
      simp only [Bool.false_or, Bool.false_eq_true, if_false]
      cases hsp : splitGo d hd t with
      | nil => exact absurd hsp (splitGo_ne_nil d hd _)
      | cons f fs =>
        rw [hsp] at ih
        simpa using ih

lemma splitGo_head_starts (d : List Char) (hd : d ≠ []) :
    ∀ s, ∃ p fs, splitGo d hd s = p :: fs ∧ startsWithL p s = true := by
  intro s
  induction s with
  | nil =>
    rw [splitGo]
    exact ⟨[], [], rfl, rfl⟩
  | cons c t ih =>
    rw [splitGo]
    by_cases hsw : startsWithL d (c :: t) = true
    · rw [if_pos hsw]
      exact ⟨[], _, rfl, rfl⟩
    · rw [if_neg hsw]
      obtain ⟨p, fs, hpfs, hps⟩ := ih
      rw [hpfs]
      refine ⟨c :: p, fs, rfl, ?_⟩
      simp only [startsWithL, Bool.and_eq_true, decide_eq_true_eq]
      exact ⟨trivial, hps⟩

lemma splitGo_parts_no_occurs (d : List Char) (hd : d ≠ []) :
    ∀ (n : Nat) (s : List Char), s.length ≤ n →
      ∀ p ∈ splitGo d hd s, occursL d p = false := by
  intro n
  induction n with
  | zero =>
    intro s hs p hp
    have hnil : s = [] := List.eq_nil_of_length_eq_zero (by omega)
    subst hnil
    rw [splitGo] at hp
    simp only [List.mem_singleton] at hp
    subst hp
    cases d with
    | nil => exact absurd rfl hd
    | cons c d1 => rfl
  | succ n ih =>
    intro s hs p hp
    cases s with
    | nil =>
      rw [splitGo] at hp
      simp only [List.mem_singleton] at hp
      subst hp
      cases d with
      | nil => exact absurd rfl hd
      | cons c d1 => rfl
    | cons c t =>
      rw [splitGo] at hp
      by_cases hsw : startsWithL d (c :: t) = true
      · rw [if_pos hsw] at hp
        rcases List.mem_cons.mp hp with h | h
        · subst h
          cases d with
          | nil => exact absurd rfl hd
          | cons e d1 => rfl
        · have hdlen : 1 ≤ d.length := by
            cases d with
            | nil => exact absurd rfl hd
            | cons e d1 => simp
          have hlen : ((c :: t).drop d.length).length ≤ n := by
            simp only [List.length_drop, List.length_cons]
            simp only [List.length_cons] at hs
            omega
          exact ih _ hlen p h
      · rw [if_neg hsw] at hp
        cases hsp : splitGo d hd t with
        | nil => exact absurd hsp (splitGo_ne_nil d hd _)
        | cons f fs =>
          rw [hsp] at hp
          have hlen : t.length ≤ n := by
            simp only [List.length_cons] at hs
            omega
          rcases List.mem_cons.mp hp with h | h
          · subst h
            rw [occursL]
            have hf : occursL d f = false :=
              ih t hlen f (by rw [hsp]; exact List.mem_cons_self f fs)
            have hstart : startsWithL d (c :: f) = false := by
              cases hq : startsWithL d (c :: f)
              · rfl
              · obtain ⟨p1, fs1, hpfs1, hps1⟩ := splitGo_head_starts d hd t
                rw [hsp] at hpfs1
                have hff : p1 = f := by
                  simpa using (congrArg (fun l => l.headI) hpfs1).symm
                subst hff
                have hcf : startsWithL (c :: p1) (c :: t) = true := by
                  simp only [startsWithL, Bool.and_eq_true, decide_eq_true_eq]
                  exact ⟨trivial, hps1⟩
                have := startsWithL_trans d (c :: p1) (c :: t) hq hcf
                exact absurd this hsw
            rw [hstart, hf]
            rfl
          · exact ih t hlen p (by rw [hsp]; exact List.mem_cons_of_mem _ h)

/-! ## Remaining support lemmas -/

lemma isSuffixOf_single_iff (l : List Nat) (t : Nat) :
    List.isSuffixOf [t] l = true ↔ l.getLast? = some t := by
  rw [List.isSuffixOf_iff_suffix]
  constructor
  · rintro ⟨s, rfl⟩
    simp
  · intro h
    have hne : l ≠ [] := by
      intro hnil
      rw [hnil] at h
      simp at h
    have hlast : l.getLast hne = t := by
      rw [List.getLast?_eq_getLast l hne] at h
      exact Option.some.inj h
    refine ⟨l.dropLast, ?_⟩
    rw [← hlast]
    exact List.dropLast_append_getLast hne

lemma streamConsumer_channels_piped (t : Nat) (msgs : List (List Char))
    (rest : List Token) :
    ∀ acc, streamConsumer t (msgs.map Token.channel ++ Token.piped :: rest) [] acc
      = ConsumerResult.fatal (acc ++ msgs) := by
  induction msgs with
  | nil => intro acc; simp [streamConsumer, read_pipe]
  | cons m ms ih =>
    intro acc
    simp only [List.map_cons, List.cons_append, streamConsumer, List.append_eq]
    rw [ih (acc ++ [m])]
    simp

/-! ## Claim theorems -/

/-- C1, counterexample: on the line `b` (byte 98) the pattern `a*`
matches the empty string at offsets 0 and 1 (a well-formed,
zero-width match list), and `regex_proc` emits an empty segment for each
zero-width match: the segmentation does contain empty segments, because
only the empty *unmatched* spans are dropped (lines 638–647) while the
matched span is always sent (lines 648–652). -/
theorem c1_zero_width_match_counterexample :
    capsOk (utf8DecodeLossy [98]).length 0 [(0, 0), (1, 1)] = true
    ∧ (∀ p ∈ [((0 : Nat), (0 : Nat)), (1, 1)], p.1 ≤ p.2)
    ∧ (regex_proc [98] [(0, 0), (1, 1)] false).any
        (fun s => s.text.isEmpty) = true := by
  refine ⟨by decide, by decide, by decide⟩

/-- C1 (amended): in pattern mode an empty unmatched (match-adjacent)
span never produces a segment, so when every pattern match is non-empty
the segmentation contains no empty segment; a zero-width match itself,
however, does produce an (empty) segment. -/
theorem c1_no_empty_segments (line : List Char) (caps : List (Nat × Nat))
    (invert : Bool) (hok : capsOk line.length 0 caps = true)
    (hpos : ∀ p ∈ caps, p.1 < p.2) :
    ∀ seg ∈ regex_proc_str line caps invert, seg.text ≠ [] :=
  regex_proc_go_nonempty line invert caps 0 hok hpos

/-- Witness for `c1_no_empty_segments` at a concrete input. -/
theorem c1_no_empty_segments_witness :
    capsOk (['a', 'b'] : List Char).length 0 [(0, 1)] = true
    ∧ ∀ seg ∈ regex_proc_str ['a', 'b'] [(0, 1)] false, seg.text ≠ [] :=
  ⟨by decide, c1_no_empty_segments ['a', 'b'] [(0, 1)] false (by decide)
    (by decide)⟩

/-- C3, counterexample: segmentation is performed on
`String::from_utf8_lossy` of the record, so for a record that is not
valid UTF-8 (here the single byte `0xFF`) the concatenated segment text
re-encodes to the replacement character's bytes `EF BF BD`, not to the
original record bytes. -/
theorem c3_lossy_counterexample :
    utf8Encode (concatText (regex_proc [255] [] false)) ≠ [255] := by decide

/-- C3 (amended): for every record, the concatenation of the segments
produced by any of the four segmentation routines equals the
lossy-decoded record, and the `trim_eol` terminator is reproduced
byte-for-byte; consequently the original record bytes are reconstructed
exactly whenever the record is valid UTF-8 (i.e. decoding is lossless). -/
theorem c3_segments_reconstruct_record :
    (∀ (line : List Char) (caps : List (Nat × Nat)) (invert : Bool),
        capsOk line.length 0 caps = true →
        concatText (regex_proc_str line caps invert) = line)
    ∧ (∀ (line : List Char) (rs : List Range),
        concatText (char_proc_str line rs) = line)
    ∧ (∀ (line delim : List Char) (rs : List Range), delim ≠ [] →
        concatText (field_proc_str line delim rs) = line)
    ∧ (∀ (line : List Char) (caps : List (Nat × Nat)) (rs : List Range),
        capsOk line.length 0 caps = true →
        concatText (field_regex_proc_str line caps rs) = line)
    ∧ (∀ buf : List Nat, (trim_eol buf).1 ++ (trim_eol buf).2 = buf)
    ∧ (∀ bytes : List Nat, utf8Encode (utf8DecodeLossy bytes) = bytes →
        ∀ (caps : List (Nat × Nat)) (invert : Bool) (delim : List Char)
          (rs : List Range),
          capsOk (utf8DecodeLossy bytes).length 0 caps = true → delim ≠ [] →
          utf8Encode (concatText (regex_proc bytes caps invert)) = bytes
          ∧ utf8Encode (concatText (char_proc bytes rs)) = bytes
          ∧ utf8Encode (concatText (field_proc bytes delim rs)) = bytes
          ∧ utf8Encode (concatText (field_regex_proc bytes caps rs)) = bytes) := by
  have hregex : ∀ (line : List Char) (caps : List (Nat × Nat)) (invert : Bool),
      capsOk line.length 0 caps = true →
      concatText (regex_proc_str line caps invert) = line := by
    intro line caps invert hok
    have := regex_proc_go_concat line invert caps 0 hok
    simpa [regex_proc_str] using this
  have hchar : ∀ (line : List Char) (rs : List Range),
      concatText (char_proc_str line rs) = line := by
    intro line rs
    have := char_proc_go_concat rs line 0 0 [] [] false
      (fun h => by cases h) (fun _ => rfl)
    simpa [char_proc_str] using this
  have hfregex : ∀ (line : List Char) (caps : List (Nat × Nat))
      (rs : List Range), capsOk line.length 0 caps = true →
      concatText (field_regex_proc_str line caps rs) = line := by
    intro line caps rs hok
    have := field_regex_go_concat rs line caps 1 0 0 hok
    simpa [field_regex_proc_str] using this
  refine ⟨hregex, hchar, field_proc_str_concat, hfregex, trim_eol_append, ?_⟩
  intro bytes hval caps invert delim rs hok hd
  refine ⟨?_, ?_, ?_, ?_⟩
  · rw [regex_proc, hregex _ _ _ hok, hval]
  · rw [char_proc, hchar, hval]
  · rw [field_proc, field_proc_str_concat _ _ _ hd, hval]
  · rw [field_regex_proc, hfregex _ _ _ hok, hval]

/-- Witness for `c3_segments_reconstruct_record` at concrete inputs. -/
theorem c3_segments_reconstruct_record_witness :
    concatText (regex_proc_str ['a', 'b'] [(1, 2)] false) = ['a', 'b']
    ∧ concatText (field_proc_str ['a', ',', 'b'] [','] [⟨1, 1⟩])
        = ['a', ',', 'b']
    ∧ utf8Encode (concatText (char_proc [97, 98] [⟨1, 1⟩])) = [97, 98] := by
  refine ⟨?_, ?_, ?_⟩
  · exact c3_segments_reconstruct_record.1 ['a', 'b'] [(1, 2)] false (by decide)
  · exact c3_segments_reconstruct_record.2.2.1 ['a', ',', 'b'] [','] [⟨1, 1⟩]
      (by decide)
  · exact (c3_segments_reconstruct_record.2.2.2.2.2 [97, 98] (by decide)
      [] false [','] [⟨1, 1⟩] (by decide) (by decide)).2.1

/-- C4: in character mode (for a well-formed Range Set) the selected
segments are exactly the maximal runs of consecutive selected
characters — a run of `k ≥ 1` consecutive selected characters yields
exactly one `pipe` segment; the non-empty pass-through segments are
exactly the maximal unselected runs; and in solid mode the number of
`Solid` tokens (subprocess invocations) equals the number of selected
runs. -/
theorem c4_char_mode_merges_runs (line : List Char) (rs : List Range)
    (hWF : rangesWF rs) :
    pipeTexts (char_proc_str line rs) = selRuns (charCls rs) line
    ∧ (msgTexts (char_proc_str line rs)).filter (fun t => !t.isEmpty)
        = unselRuns (charCls rs) line
    ∧ ∀ hl, ((char_proc_str line rs).map (segToken false true hl)).countP
        Token.isSolidTok = (selRuns (charCls rs) line).length := by
  refine ⟨pipeTexts_char_proc_str line rs hWF,
    msgTexts_char_proc_str line rs hWF, ?_⟩
  intro hl
  rw [countSolid_map_segToken, pipeTexts_char_proc_str line rs hWF]

/-- Witness for `c4_char_mode_merges_runs` at a concrete input: with
ranges `2-3` the record `abcd` has the single selected run `bc`. -/
theorem c4_char_mode_merges_runs_witness :
    rangesWF [⟨2, 3⟩]
    ∧ pipeTexts (char_proc_str ['a', 'b', 'c', 'd'] [⟨2, 3⟩]) = [['b', 'c']]
    ∧ ((char_proc_str ['a', 'b', 'c', 'd'] [⟨2, 3⟩]).map
        (segToken false true [])).countP Token.isSolidTok = 1 := by
  have hWF : rangesWF [⟨2, 3⟩] := ⟨by simp, by decide⟩
  have h := c4_char_mode_merges_runs ['a', 'b', 'c', 'd'] [⟨2, 3⟩] hWF
  refine ⟨hWF, ?_, ?_⟩
  · rw [h.1]
    decide
  · rw [h.2.2 []]
    decide

/-- C5: on the record `a,,c` with delimiter `,` and Range Set `\x7b2,2\x7d`
(select field 2), `field_proc` emits the three field segments `a`, ``,
`c` interleaved with two pass-through delimiter segments, and the empty
middle field is classified as selected. -/
theorem c5_field_proc_empty_field :
    field_proc_str ['a', ',', ',', 'c'] [','] [⟨2, 2⟩]
      = [Seg.msg ['a'], Seg.msg [','], Seg.pipe [],
         Seg.msg [','], Seg.msg ['c']] := by
  simp [field_proc_str, splitOnL, splitGo, startsWithL, field_proc_go,
    advanceCursor, cursorTest, rangeAt, List.getD]

/-- C6: for every subprocess behaviour, `exec_cmd_sync` writes exactly
the segment bytes plus one terminator byte to the child's stdin, and the
captured stdout is stripped of exactly one trailing terminator byte if
and only if one is present (the stripped bytes, lossy-decoded, are what
is returned for writing). -/
theorem c6_exec_cmd_sync_strip (run : List Nat → List Nat)
    (input : List Char) (t : Nat) :
    exec_cmd_sync_stdin input t = utf8Encode input ++ [t]
    ∧ ((exec_cmd_sync_bytes run input t
          = (run (exec_cmd_sync_stdin input t)).dropLast
        ∧ exec_cmd_sync_bytes run input t ++ [t]
            = run (exec_cmd_sync_stdin input t)
        ∧ (run (exec_cmd_sync_stdin input t)).getLast? = some t)
      ∨ (exec_cmd_sync_bytes run input t = run (exec_cmd_sync_stdin input t)
        ∧ (run (exec_cmd_sync_stdin input t)).getLast? ≠ some t))
    ∧ exec_cmd_sync run input t
        = utf8DecodeLossy (exec_cmd_sync_bytes run input t) := by
  refine ⟨rfl, ?_, rfl⟩
  by_cases h : List.isSuffixOf [t] (run (exec_cmd_sync_stdin input t)) = true
  · left
    have hlast := (isSuffixOf_single_iff _ t).mp h
    have happ : (run (exec_cmd_sync_stdin input t)).dropLast ++ [t]
        = run (exec_cmd_sync_stdin input t) := by
      obtain ⟨s, hs⟩ := List.isSuffixOf_iff_suffix.mp h
      rw [← hs]
      simp
    refine ⟨?_, ?_, hlast⟩
    · rw [exec_cmd_sync_bytes]
      simp only [h, if_true]
    · rw [exec_cmd_sync_bytes]
      simp only [h, if_true]
      exact happ
  · right
    constructor
    · have hfalse : List.isSuffixOf [t] (run (exec_cmd_sync_stdin input t))
          = false := by
        cases hq : List.isSuffixOf [t] (run (exec_cmd_sync_stdin input t))
        · rfl
        · exact absurd hq h
      rw [exec_cmd_sync_bytes]
      simp only [hfalse, Bool.false_eq_true, if_false]
    · intro hlast
      exact h ((isSuffixOf_single_iff _ t).mpr hlast)

/-- C7, counterexample: the cursor advances at most one range per query,
so for the well-formed Range Set `\x7b1,1\x7d,\x7b3,3\x7d,\x7b5,5\x7d` and the
non-decreasing query sequence `1, 5` the second query answers `false`
although 5 is in the set: the claimed contract does not hold for
arbitrary non-decreasing query sequences. -/
theorem c7_jump_counterexample :
    rangesWF [⟨1, 1⟩, ⟨3, 3⟩, ⟨5, 5⟩]
    ∧ List.Chain' (fun a b => a ≤ b) [1, 5]
    ∧ queryScan [⟨1, 1⟩, ⟨3, 3⟩, ⟨5, 5⟩] [1, 5] 0
        ≠ [1, 5].map (memberRS [⟨1, 1⟩, ⟨3, 3⟩, ⟨5, 5⟩]) := by
  refine ⟨⟨by simp, by decide⟩, by simp, by decide⟩

/-- C7 (amended): for the query sequences the call sites actually issue
— consecutive indices `1, 2, …, n` sharing one cursor — each query of a
well-formed Range Set returns `true` exactly when the index lies in some
range of the set. -/
theorem c7_consecutive_queries (rs : List Range) (hWF : rangesWF rs)
    (n : Nat) :
    queryScan rs (List.range' 1 n) 0 = (List.range' 1 n).map (memberRS rs) :=
  queryScan_consec rs hWF n 1 0 (cursorPre_init rs hWF)

/-- Witness for `c7_consecutive_queries` at a concrete input. -/
theorem c7_consecutive_queries_witness :
    rangesWF [⟨2, 3⟩]
    ∧ queryScan [⟨2, 3⟩] (List.range' 1 4) 0 = [false, true, true, false] := by
  have hWF : rangesWF [⟨2, 3⟩] := ⟨by simp, by decide⟩
  refine ⟨hWF, ?_⟩
  rw [c7_consecutive_queries [⟨2, 3⟩] hWF 4]
  decide

/-- C8: in streaming mode, when the subprocess stdout is exhausted (zero
readable bytes) while a `Piped` token is pending, the consumer ends
fatally; everything already written to the buffered writer (here the
texts of the `Channel` tokens processed before the pending `Piped`) is
flushed, and the run exits with code 1 through `error_exit`. -/
theorem c8_premature_close_flush (t : Nat) (msgs : List (List Char))
    (rest : List Token) (hl : List (List Char)) (cmds : List String)
    (htpl : templateOk hl = true) :
    streamConsumer t (msgs.map Token.channel ++ Token.piped :: rest) [] []
      = ConsumerResult.fatal msgs
    ∧ streamRun hl cmds true (msgs.map Token.channel ++ Token.piped :: rest)
        [] t = Outcome.exit 1 true := by
  have hcons := streamConsumer_channels_piped t msgs rest []
  simp only [List.nil_append] at hcons
  refine ⟨hcons, ?_⟩
  rw [streamRun]
  have hexec : exec_cmd cmds true = Except.ok () := by
    rw [exec_cmd]
    split <;> simp
  simp [htpl, hexec, hcons]

/-- Witness for `c8_premature_close_flush` at a concrete input. -/
theorem c8_premature_close_flush_witness :
    streamRun [[], []] [] true [Token.channel ['x'], Token.piped] [] 10
      = Outcome.exit 1 true := by
  have h := c8_premature_close_flush 10 [['x']] [] [[], []] [] (by decide)
  simpa using h.2

/-- C9, counterexample: in streaming mode `send_pipe` performs the
channel send of the `Piped` read-signal token FIRST (line 278) and only
then writes the segment bytes and the terminator to the subprocess
stdin (lines 282–287): the trace contains stdin writes strictly after
the send, so the write does happen after the read signal. -/
theorem c9_write_after_send_counterexample :
    hasWriteAfterSend (send_pipe_effects false false [[], []] 10 ['a']) = true
    ∧ send_pipe_effects false false [[], []] 10 ['a']
        = [Effect.send Token.piped, Effect.stdinWrite [97],
           Effect.stdinWrite [10]] := by
  exact ⟨by decide, by decide⟩

/-- C9 (amended): in streaming mode `send_pipe` first sends the `Piped`
token to the consumer and only afterwards writes the segment bytes plus
the terminator byte to the subprocess stdin — the write never precedes
the signal. -/
theorem c9_send_then_write (hl : List (List Char)) (t : Nat)
    (msg : List Char) :
    (send_pipe_effects false false hl t msg).head?
        = some (Effect.send Token.piped)
    ∧ (send_pipe_effects false false hl t msg).tail
        = [Effect.stdinWrite (utf8Encode msg), Effect.stdinWrite [t]]
    ∧ hasWriteAfterSend (send_pipe_effects false false hl t msg) = true := by
  refine ⟨rfl, rfl, ?_⟩
  rw [send_pipe_effects]
  simp [hasWriteAfterSend, Effect.isSend, Effect.isWrite, List.dropWhile,
    Effect.isWrite]

/-- C2, counterexample: in solid mode a subprocess spawn failure does
not reach `error_exit`: `exec_cmd_sync` panics
(`.expect("Failed to spawn child process")`, line 232) inside the
consumer thread, and `Drop`'s `handler.join().unwrap()` re-raises the
panic in the main thread, so the process aborts with the panic exit
status (101), not with a reported exit code 1. -/
theorem c2_solid_spawn_panic_counterexample :
    solidRun [[], []] none [Token.solid ['x'], Token.eof] 10
      = Outcome.panicked
    ∧ ∀ b, Outcome.panicked ≠ Outcome.exit 1 b := by
  constructor
  · decide
  · intro b
    cases b <;> decide

/-- C2 (amended): a malformed highlight template exits 1 before any
I/O in both modes; a streaming-mode spawn failure is reported and exits
1; a premature-closure consumer failure exits 1; normal completion exits
0; but a solid-mode spawn failure terminates by panic (Rust exit status
101), not through the exit-1 path. -/
theorem c2_exit_codes :
    (∀ hl cmds spawnOk tokens stream t, templateOk hl = false →
        streamRun hl cmds spawnOk tokens stream t = Outcome.exit 1 true)
    ∧ (∀ hl run tokens t, templateOk hl = false →
        solidRun hl run tokens t = Outcome.exit 1 true)
    ∧ (∀ hl cmds tokens stream t, templateOk hl = true → cmds ≠ [] →
        streamRun hl cmds false tokens stream t = Outcome.exit 1 true)
    ∧ (∀ hl cmds spawnOk tokens stream t out, templateOk hl = true →
        exec_cmd cmds spawnOk = Except.ok () →
        streamConsumer t tokens stream [] = ConsumerResult.ok out →
        streamRun hl cmds spawnOk tokens stream t = Outcome.exit 0 false)
    ∧ (∀ hl cmds spawnOk tokens stream t f, templateOk hl = true →
        exec_cmd cmds spawnOk = Except.ok () →
        streamConsumer t tokens stream [] = ConsumerResult.fatal f →
        streamRun hl cmds spawnOk tokens stream t = Outcome.exit 1 true)
    ∧ (∀ hl tokens t acc, templateOk hl = true →
        solidConsumer none t tokens [] = SolidResult.panicked acc →
        solidRun hl none tokens t = Outcome.panicked) := by
  refine ⟨?_, ?_, ?_, ?_, ?_, ?_⟩
  · intro hl cmds spawnOk tokens stream t htpl
    rw [streamRun]
    simp [htpl]
  · intro hl run tokens t htpl
    rw [solidRun]
    simp [htpl]
  · intro hl cmds tokens stream t htpl hcmds
    rw [streamRun]
    have hexec : exec_cmd cmds false = Except.error SpawnError.io := by
      rw [exec_cmd]
      have : ¬ cmds.length = 0 := by
        intro h0
        exact hcmds (List.eq_nil_of_length_eq_zero h0)
      simp [this]
    simp [htpl, hexec]
  · intro hl cmds spawnOk tokens stream t out htpl hexec hcons
    rw [streamRun]
    simp [htpl, hexec, hcons]
  · intro hl cmds spawnOk tokens stream t f htpl hexec hcons
    rw [streamRun]
    simp [htpl, hexec, hcons]
  · intro hl tokens t acc htpl hcons
    rw [solidRun]
    simp [htpl, hcons]

/-- Witness for `c2_exit_codes` at concrete inputs. -/
theorem c2_exit_codes_witness :
    streamRun [[]] [] true [] [] 10 = Outcome.exit 1 true
    ∧ streamRun [[], []] ["cmd"] false [] [] 10 = Outcome.exit 1 true
    ∧ streamRun [[], []] [] true [Token.eof] [] 10 = Outcome.exit 0 false
    ∧ streamRun [[], []] [] true [Token.piped] [] 10 = Outcome.exit 1 true
    ∧ solidRun [[], []] none [Token.solid ['x']] 10 = Outcome.panicked := by
  refine ⟨?_, ?_, ?_, ?_, ?_⟩
  · exact c2_exit_codes.1 [[]] [] true [] [] 10 (by decide)
  · exact c2_exit_codes.2.2.1 [[], []] ["cmd"] [] [] 10 (by decide) (by simp)
  · exact c2_exit_codes.2.2.2.1 [[], []] [] true [Token.eof] [] 10 []
      (by decide) rfl (by decide)
  · exact c2_exit_codes.2.2.2.2.1 [[], []] [] true [Token.piped] [] 10 []
      (by decide) rfl (by decide)
  · exact c2_exit_codes.2.2.2.2.2 [[], []] [Token.solid ['x']] 10 []
      (by decide) (by decide)

/-- C10: the startup check `HL.len() < 2` rejects exactly the templates
that contain no placeholder marker; any template with one or more
markers (hence two or more) is accepted; and for an accepted template
the dry-run rendering of a selected segment is the text before the
first marker, then the segment, then the text between the first and
second markers (the first and second split parts), with everything
after the second marker silently dropped. -/
theorem c10_highlight_template :
    (∀ template, (hlParts template).length < 2
        ↔ occursL hlMarker template = false)
    ∧ (∀ (template msg p0 p1 : List Char) (ps : List (List Char)),
        hlParts template = p0 :: p1 :: ps →
        renderDry template msg = p0 ++ msg ++ p1
        ∧ template = p0 ++ hlMarker ++ joinSep hlMarker (p1 :: ps)
        ∧ occursL hlMarker p0 = false ∧ occursL hlMarker p1 = false) := by
  have hne : hlMarker ≠ [] := by decide
  constructor
  · intro template
    have hiff := occursL_iff_splitGo hlMarker hne template
    have hsplit : hlParts template = splitGo hlMarker hne template := by
      rw [hlParts, splitOnL]
      simp [hne]
    rw [hsplit]
    constructor
    · intro hlen
      cases hq : occursL hlMarker template
      · rfl
      · have := hiff.mp hq
        omega
    · intro hfalse
      by_contra hge
      have h2 : 2 ≤ (splitGo hlMarker hne template).length := by omega
      have := hiff.mpr h2
      rw [hfalse] at this
      cases this
  · intro template msg p0 p1 ps hsplit
    have hsg : splitGo hlMarker hne template = p0 :: p1 :: ps := by
      rw [← hsplit, hlParts, splitOnL]
      simp [hne]
    refine ⟨?_, ?_, ?_, ?_⟩
    · rw [renderDry, sendPipeDry, hsplit]
      rfl
    · have hjoin : joinSep hlMarker (hlParts template) = template :=
        joinSep_splitOnL hlMarker hne template
      rw [hsplit] at hjoin
      rw [joinSep_cons_cons] at hjoin
      rw [← hjoin]
    · exact splitGo_parts_no_occurs hlMarker hne template.length template
        (le_refl _) p0 (by rw [hsg]; exact List.mem_cons_self _ _)
    · exact splitGo_parts_no_occurs hlMarker hne template.length template
        (le_refl _) p1
        (by rw [hsg]; exact List.mem_cons_of_mem _ (List.mem_cons_self _ _))

/-- Witness for `c10_highlight_template` at a concrete three-part
template (two markers): the rendering keeps the part before the first
marker and the part between the markers and drops the trailing part. -/
theorem c10_highlight_template_witness :
    renderDry ['a', Char.ofNat 123, Char.ofNat 125, 'b', Char.ofNat 123,
        Char.ofNat 125, 'c'] ['m'] = ['a', 'm', 'b']
    ∧ ¬ (hlParts ['a', Char.ofNat 123, Char.ofNat 125, 'b', Char.ofNat 123,
        Char.ofNat 125, 'c']).length < 2 := by
  have hsplit : hlParts ['a', Char.ofNat 123, Char.ofNat 125, 'b',
      Char.ofNat 123, Char.ofNat 125, 'c'] = [['a'], ['b'], ['c']] := by
    simp [hlParts, splitOnL, splitGo, startsWithL, hlMarker]
  constructor
  · have h := (c10_highlight_template.2 _ ['m'] ['a'] ['b'] [['c']] hsplit).1
    rw [h]
    rfl
  · have h := (c10_highlight_template.1 ['a', Char.ofNat 123, Char.ofNat 125,
      'b', Char.ofNat 123, Char.ofNat 125, 'c'])
    intro hlt
    have := h.mp hlt
    rw [hsplit] at hlt
    simp at hlt
